import Mathlib

/-!
# Verification of the next-rbac role-permission resolution engine

Shallow embedding of the core of the `next-rbac` repository:

* `src/server/inheritance.ts` — `resolveRolePermissions`, `inheritsFrom`,
  `getRoleHierarchy` (recursive walks over the single-parent role graph with
  cycle detection and a depth bound);
* `src/server/permissions.ts` — the authorization facade
  (`hasAnyPermission`, `hasAllPermissions`, ...);
* `src/adapters/base.ts` — the TTL cache layer (`withCache`, `clearCache`).

Conventions of the embedding:

* `Promise`s are modelled as pure values (the resolver is pure read
  computation; the only effects are the adapter lookups, modelled as pure
  functions on an abstract store).
* JavaScript string truthiness matters: `if (role.inherits)` is false for
  both `undefined` and the empty string, and `if (!role)` is true for both
  `null` and the empty string.  The embedding spells these cases out.
* The recursive `traverse` closures check `depth > maxDepth` before
  recursing at `depth + 1`, so recursion depth is bounded by `maxDepth + 1`.
  To keep every definition computable by the kernel, each is written with an
  administrative `fuel` argument decreasing structurally; the public
  wrappers pass `fuel = maxDepth + 2`, which the depth guard makes
  unreachable (the guard fires at `depth = maxDepth + 1`, i.e. at
  `fuel = 1`), so the `fuel = 0` branch is dead code from the wrappers.
* `Date.now()` is modelled by a `now : Nat` argument (epoch milliseconds);
  a single `withCache` call reads the clock once.
-/

/-- A role document as the resolver reads it: `name`, direct `permissions`,
and the optional `inherits` parent pointer.  The store-only fields
(`_id`, timestamps, `deleted_at`) are never read by the functions modelled
here and are omitted. -/
structure RoleDocument where
  name : String
  permissions : List String
  inherits : Option String
deriving DecidableEq, Repr

/-- The Role Store Contract (`RBACAdapter` in `src/types.ts`): the three
lookup operations the core consumes, modelled as pure functions. -/
structure RBACAdapter where
  findRole : String → Option RoleDocument
  getUserRole : String → Option String
  getRolePermissions : String → List String

/-- The two fatal resolution errors of `src/server/inheritance.ts`:
`Role inheritance depth exceeded ...` and
`Circular role inheritance detected: ...`. -/
inductive InheritanceError where
  | depthExceeded (maxDepth : Nat) (role : String)
  | circularInheritance (role : String)
deriving DecidableEq, Repr

/-- The default `maxDepth` of `InheritanceOptions` (`@default 10`). -/
def defaultMaxDepth : Nat := 10

/-- JavaScript `Set.prototype.add` on an insertion-ordered set modelled as a
duplicate-free list: append the element unless already present. -/
def setAdd (acc : List String) (p : String) : List String :=
  if p ∈ acc then acc else acc ++ [p]

/-- The inner `traverse` closure of `resolveRolePermissions`:
guards `depth > maxDepth` (throw `DepthExceeded`) and
`visited.has(currentRole)` (throw `CircularInheritance`), then marks
visited, looks the role up (absent role ends the walk, returning the
accumulator), unions the role's direct permissions into the accumulator,
and recurses on a truthy `inherits`.  `fuel` is administrative (see the
file comment); the walk's value is the accumulated permission list. -/
def traverseResolve (adapter : RBACAdapter) (maxDepth : Nat) :
    Nat → String → Nat → List String → List String →
    Except InheritanceError (List String)
  | 0, currentRole, _, _, _ =>
    .error (.depthExceeded maxDepth currentRole)
  | fuel + 1, currentRole, depth, visited, allPermissions =>
    if depth > maxDepth then
      .error (.depthExceeded maxDepth currentRole)
    else if currentRole ∈ visited then
      .error (.circularInheritance currentRole)
    else
      let visited := visited ++ [currentRole]
      match adapter.findRole currentRole with
      | none => .ok allPermissions
      | some role =>
        let allPermissions := role.permissions.foldl setAdd allPermissions
        match role.inherits with
        | some parent =>
          if parent = "" then .ok allPermissions
          else traverseResolve adapter maxDepth fuel parent (depth + 1)
            visited allPermissions
        | none => .ok allPermissions

/-- `resolveRolePermissions(adapter, roleName, { maxDepth })`: the full
effective permission list (deduplicated, insertion order) of `roleName`. -/
def resolveRolePermissions (adapter : RBACAdapter) (roleName : String)
    (maxDepth : Nat) : Except InheritanceError (List String) :=
  traverseResolve adapter maxDepth (maxDepth + 2) roleName 0 [] []

/-- The inner `traverse` closure of `inheritsFrom`: same guards as the
resolver but every failure path returns `false` instead of throwing; returns
`true` as soon as `role.inherits === parentRole`. -/
def traverseInherits (adapter : RBACAdapter) (parentRole : String)
    (maxDepth : Nat) : Nat → String → Nat → List String → Bool
  | 0, _, _, _ => false
  | fuel + 1, currentRole, depth, visited =>
    if depth > maxDepth then false
    else if currentRole ∈ visited then false
    else
      let visited := visited ++ [currentRole]
      match adapter.findRole currentRole with
      | none => false
      | some role =>
        if role.inherits = some parentRole then true
        else
          match role.inherits with
          | some parent =>
            if parent = "" then false
            else traverseInherits adapter parentRole maxDepth fuel parent
              (depth + 1) visited
          | none => false

/-- `inheritsFrom(adapter, roleName, parentRole, { maxDepth })`: whether
`roleName` inherits (directly or transitively) from `parentRole`. -/
def inheritsFrom (adapter : RBACAdapter) (roleName parentRole : String)
    (maxDepth : Nat) : Bool :=
  traverseInherits adapter parentRole maxDepth (maxDepth + 2) roleName 0 []

/-- The inner `traverse` closure of `getRoleHierarchy`: same guards as the
resolver; pushes `currentRole` onto the hierarchy *before* looking it up,
and recurses on a truthy `role?.inherits`. -/
def traverseHierarchy (adapter : RBACAdapter) (maxDepth : Nat) :
    Nat → String → Nat → List String → List String →
    Except InheritanceError (List String)
  | 0, currentRole, _, _, _ =>
    .error (.depthExceeded maxDepth currentRole)
  | fuel + 1, currentRole, depth, visited, hierarchy =>
    if depth > maxDepth then
      .error (.depthExceeded maxDepth currentRole)
    else if currentRole ∈ visited then
      .error (.circularInheritance currentRole)
    else
      let visited := visited ++ [currentRole]
      let hierarchy := hierarchy ++ [currentRole]
      match adapter.findRole currentRole with
      | some role =>
        match role.inherits with
        | some parent =>
          if parent = "" then .ok hierarchy
          else traverseHierarchy adapter maxDepth fuel parent (depth + 1)
            visited hierarchy
        | none => .ok hierarchy
      | none => .ok hierarchy

/-- `getRoleHierarchy(adapter, roleName, { maxDepth })`: the ordered chain
`[roleName, parent, grandparent, ...]`. -/
def getRoleHierarchy (adapter : RBACAdapter) (roleName : String)
    (maxDepth : Nat) : Except InheritanceError (List String) :=
  traverseHierarchy adapter maxDepth (maxDepth + 2) roleName 0 [] []

/-! ## Authorization facade (`src/server/permissions.ts`) -/

/-- `getRolePermissions(role, adapter)`: thin projection of the adapter. -/
def getRolePermissions (role : String) (adapter : RBACAdapter) :
    List String :=
  adapter.getRolePermissions role

/-- `hasPermission(userId, permission, adapter)`: false when the subject has
no (truthy) role; else membership in the role's direct permission list. -/
def hasPermission (userId : String) (permission : String)
    (adapter : RBACAdapter) : Bool :=
  match adapter.getUserRole userId with
  | none => false
  | some role =>
    if role = "" then false
    else (getRolePermissions role adapter).contains permission

/-- `hasAnyPermission(userId, permissions, adapter)`: `permissions.some`
over the subject's role's direct permission list; false when the subject has
no (truthy) role. -/
def hasAnyPermission (userId : String) (permissions : List String)
    (adapter : RBACAdapter) : Bool :=
  match adapter.getUserRole userId with
  | none => false
  | some role =>
    if role = "" then false
    else
      let userPermissions := getRolePermissions role adapter
      permissions.any (fun p => userPermissions.contains p)

/-- `hasAllPermissions(userId, permissions, adapter)`: `permissions.every`
over the subject's role's direct permission list; false when the subject has
no (truthy) role. -/
def hasAllPermissions (userId : String) (permissions : List String)
    (adapter : RBACAdapter) : Bool :=
  match adapter.getUserRole userId with
  | none => false
  | some role =>
    if role = "" then false
    else
      let userPermissions := getRolePermissions role adapter
      permissions.all (fun p => userPermissions.contains p)

/-! ## Cache layer (`src/adapters/base.ts`) -/

/-- One cache entry: `{ data, expires }` with `expires` in epoch ms. -/
structure CacheEntry (α : Type) where
  data : α
  expires : Nat
deriving DecidableEq, Repr

/-- The cache `Map<string, { data, expires }>` as an association list with
unique keys. -/
abbrev CacheMap (α : Type) : Type := List (String × CacheEntry α)

/-- `Map.prototype.get`. -/
def cacheGet {α : Type} (c : CacheMap α) (key : String) :
    Option (CacheEntry α) :=
  match c with
  | [] => none
  | (k, e) :: rest => if k = key then some e else cacheGet rest key

/-- `Map.prototype.set`: replace in place or append. -/
def cacheSet {α : Type} (c : CacheMap α) (key : String) (e : CacheEntry α) :
    CacheMap α :=
  match c with
  | [] => [(key, e)]
  | (k, e') :: rest =>
    if k = key then (k, e) :: rest else (k, e') :: cacheSet rest key e

/-- `Map.prototype.delete` (keys are unique in a `Map`). -/
def cacheDelete {α : Type} (c : CacheMap α) (key : String) : CacheMap α :=
  match c with
  | [] => []
  | (k, e) :: rest =>
    if k = key then rest else (k, e) :: cacheDelete rest key

/-- `CacheConfig` of `src/adapters/base.ts`: `enabled` defaults to false,
`ttl` (seconds) is optional. -/
structure CacheConfig where
  enabled : Bool
  ttl : Option Nat
deriving DecidableEq, Repr

/-- The `BaseAdapter` cache state: `cache` is `none` exactly when caching is
disabled (the constructor allocates the `Map` only when
`cacheConfig.enabled`). -/
structure BaseAdapterState (α : Type) where
  cache : Option (CacheMap α)
  cacheConfig : CacheConfig

/-- The `BaseAdapter` constructor. -/
def mkBaseAdapterState (α : Type) (cfg : CacheConfig) :
    BaseAdapterState α :=
  { cache := if cfg.enabled then some [] else none, cacheConfig := cfg }

/-- `this.cacheConfig.ttl || 300`: JavaScript `||` treats both `undefined`
and `0` as absent. -/
def ttlOrDefault (cfg : CacheConfig) : Nat :=
  match cfg.ttl with
  | some t => if t = 0 then 300 else t
  | none => 300

/-- `withCache(key, fetcher)` at clock value `now`.  The fetcher is modelled
by the value `fetched` it would produce; the result records the returned
value, the successor state, and whether the fetcher was invoked. -/
def withCache {α : Type} (st : BaseAdapterState α) (key : String)
    (fetched : α) (now : Nat) : α × BaseAdapterState α × Bool :=
  match st.cache with
  | none => (fetched, st, true)
  | some c =>
    let hit : Option α :=
      match cacheGet c key with
      | some cached => if cached.expires > now then some cached.data else none
      | none => none
    match hit with
    | some data => (data, st, false)
    | none =>
      let ttl := ttlOrDefault st.cacheConfig
      (fetched,
        { st with
          cache := some (cacheSet c key ⟨fetched, now + ttl * 1000⟩) },
        true)

/-- `clearCache(key?)`: remove one entry, or all entries when no key is
given; a no-op when caching is disabled. -/
def clearCache {α : Type} (st : BaseAdapterState α) (key : Option String) :
    BaseAdapterState α :=
  match st.cache with
  | none => st
  | some c =>
    match key with
    | some k => { st with cache := some (cacheDelete c k) }
    | none => { st with cache := some [] }

/-! ## Derived notions used to state the claims -/

/-- Direct permissions of a role name: `adapter.findRole(r).permissions`,
and the empty list when the role has no record. -/
def directPermissions (adapter : RBACAdapter) (r : String) : List String :=
  match adapter.findRole r with
  | some role => role.permissions
  | none => []

/-- Union (as a finite set) of the direct permissions of every role name in
a list. -/
def unionDirect (adapter : RBACAdapter) (l : List String) : Finset String :=
  l.foldr (fun r acc => (directPermissions adapter r).toFinset ∪ acc) ∅

/-- The successor of a role in the walk all three traversals share: the
truthy `inherits` of its record, `none` when the role is absent, has no
parent, or has the (falsy) empty-string parent. -/
def roleStep (adapter : RBACAdapter) (r : String) : Option String :=
  match adapter.findRole r with
  | some role =>
    match role.inherits with
    | some parent => if parent = "" then none else some parent
    | none => none
  | none => none

/-- `chainLinks adapter l`: consecutive elements of `l` are linked by
`roleStep`. -/
def chainLinks (adapter : RBACAdapter) : List String → Bool
  | a :: b :: rest =>
    roleStep adapter a = some b && chainLinks adapter (b :: rest)
  | _ => true

/-! ## Concrete stores (the fixtures of `inheritance.test.ts`) -/

/-- An in-memory store over a role list, mirroring the mock adapter of
`inheritance.test.ts` (`findRole` resolves against the list; the user-side
lookups are unused by the inheritance functions). -/
def mkStoreAdapter (rs : List RoleDocument) : RBACAdapter :=
  { findRole := fun n => rs.find? (fun d => d.name = n)
    getUserRole := fun _ => none
    getRolePermissions := fun _ => [] }

/-- The four-role fixture `user ← manager ← admin ← super-admin`. -/
def fixtureAdapter : RBACAdapter := mkStoreAdapter [
  ⟨"user", ["users.read", "profile.read"], none⟩,
  ⟨"manager", ["users.update", "reports.read"], some "user"⟩,
  ⟨"admin", ["users.delete", "settings.read"], some "manager"⟩,
  ⟨"super-admin", ["system.admin"], some "admin"⟩]

/-- Two mutual parents: `role-a` inherits `role-b` and vice versa. -/
def mutualAdapter : RBACAdapter := mkStoreAdapter [
  ⟨"role-a", ["perm-a"], some "role-b"⟩,
  ⟨"role-b", ["perm-b"], some "role-a"⟩]

/-- A role naming itself as parent. -/
def selfParentAdapter : RBACAdapter := mkStoreAdapter [
  ⟨"r", [], some "r"⟩]

/-- The fifteen-role linear chain `level-0 ← level-1 ← ... ← level-14` of
the max-depth tests, each role carrying one direct permission. -/
def chainAdapter : RBACAdapter := mkStoreAdapter [
  ⟨"level-0", ["perm-0"], none⟩,
  ⟨"level-1", ["perm-1"], some "level-0"⟩,
  ⟨"level-2", ["perm-2"], some "level-1"⟩,
  ⟨"level-3", ["perm-3"], some "level-2"⟩,
  ⟨"level-4", ["perm-4"], some "level-3"⟩,
  ⟨"level-5", ["perm-5"], some "level-4"⟩,
  ⟨"level-6", ["perm-6"], some "level-5"⟩,
  ⟨"level-7", ["perm-7"], some "level-6"⟩,
  ⟨"level-8", ["perm-8"], some "level-7"⟩,
  ⟨"level-9", ["perm-9"], some "level-8"⟩,
  ⟨"level-10", ["perm-10"], some "level-9"⟩,
  ⟨"level-11", ["perm-11"], some "level-10"⟩,
  ⟨"level-12", ["perm-12"], some "level-11"⟩,
  ⟨"level-13", ["perm-13"], some "level-12"⟩,
  ⟨"level-14", ["perm-14"], some "level-13"⟩]

/-- A subject store in which no user has an assigned role. -/
def noRoleAdapter : RBACAdapter :=
  { findRole := fun _ => none
    getUserRole := fun _ => none
    getRolePermissions := fun _ => [] }

/-- A subject store in which every user has the role `admin` with one
direct permission. -/
def adminRoleAdapter : RBACAdapter :=
  { findRole := fun _ => none
    getUserRole := fun _ => some "admin"
    getRolePermissions := fun _ => ["users.read"] }

/-! ## Helper lemmas -/

theorem setAdd_toFinset (acc : List String) (p : String) :
    (setAdd acc p).toFinset = insert p acc.toFinset := by
  by_cases h : p ∈ acc
  · simp [setAdd, h]
  · simp [setAdd, h, List.toFinset_append]
    ext x
    simp
    tauto

theorem foldl_setAdd_toFinset (l acc : List String) :
    (l.foldl setAdd acc).toFinset = acc.toFinset ∪ l.toFinset := by
  induction l generalizing acc with
  | nil => simp
  | cons p rest ih =>
    rw [List.foldl_cons, ih, setAdd_toFinset]
    ext x
    simp


theorem unionDirect_cons (adapter : RBACAdapter) (r : String)
    (l : List String) :
    unionDirect adapter (r :: l) =
      (directPermissions adapter r).toFinset ∪ unionDirect adapter l := rfl

/-- One unfolding step of `traverseResolve` at positive fuel. -/
theorem traverseResolve_step (adapter : RBACAdapter) (maxDepth fuel : Nat)
    (currentRole : String) (depth : Nat)
    (visited allPermissions : List String) :
    traverseResolve adapter maxDepth (fuel + 1) currentRole depth visited
        allPermissions =
      if depth > maxDepth then
        .error (.depthExceeded maxDepth currentRole)
      else if currentRole ∈ visited then
        .error (.circularInheritance currentRole)
      else
        match adapter.findRole currentRole with
        | none => .ok allPermissions
        | some role =>
          let acc := role.permissions.foldl setAdd allPermissions
          match role.inherits with
          | some parent =>
            if parent = "" then .ok acc
            else traverseResolve adapter maxDepth fuel parent (depth + 1)
              (visited ++ [currentRole]) acc
          | none => .ok acc := rfl

/-- One unfolding step of `traverseHierarchy` at positive fuel. -/
theorem traverseHierarchy_step (adapter : RBACAdapter) (maxDepth fuel : Nat)
    (currentRole : String) (depth : Nat)
    (visited hierarchy : List String) :
    traverseHierarchy adapter maxDepth (fuel + 1) currentRole depth visited
        hierarchy =
      if depth > maxDepth then
        .error (.depthExceeded maxDepth currentRole)
      else if currentRole ∈ visited then
        .error (.circularInheritance currentRole)
      else
        match adapter.findRole currentRole with
        | some role =>
          match role.inherits with
          | some parent =>
            if parent = "" then .ok (hierarchy ++ [currentRole])
            else traverseHierarchy adapter maxDepth fuel parent (depth + 1)
              (visited ++ [currentRole]) (hierarchy ++ [currentRole])
          | none => .ok (hierarchy ++ [currentRole])
        | none => .ok (hierarchy ++ [currentRole]) := rfl

/-- One unfolding step of `traverseInherits` at positive fuel. -/
theorem traverseInherits_step (adapter : RBACAdapter)
    (parentRole : String) (maxDepth fuel : Nat) (currentRole : String)
    (depth : Nat) (visited : List String) :
    traverseInherits adapter parentRole maxDepth (fuel + 1) currentRole
        depth visited =
      if depth > maxDepth then false
      else if currentRole ∈ visited then false
      else
        match adapter.findRole currentRole with
        | none => false
        | some role =>
          if role.inherits = some parentRole then true
          else
            match role.inherits with
            | some parent =>
              if parent = "" then false
              else traverseInherits adapter parentRole maxDepth fuel parent
                (depth + 1) (visited ++ [currentRole])
            | none => false := rfl

/-- When the hierarchy walk succeeds, the resolver walk from the same
configuration also succeeds, and its accumulator gains exactly the direct
permissions of the roles the hierarchy walk appended. -/
theorem traverseHierarchy_ok_resolve (adapter : RBACAdapter)
    (maxDepth : Nat) :
    ∀ (fuel : Nat) (current : String) (depth : Nat)
      (visited hier L acc : List String),
    traverseHierarchy adapter maxDepth fuel current depth visited hier =
      .ok L →
    ∃ tail perms, L = hier ++ tail ∧
      traverseResolve adapter maxDepth fuel current depth visited acc =
        .ok perms ∧
      perms.toFinset = acc.toFinset ∪ unionDirect adapter tail := by
  intro fuel
  induction fuel with
  | zero =>
    intro current depth visited hier L acc h
    simp [traverseHierarchy] at h
  | succ fuel ih =>
    intro current depth visited hier L acc h
    rw [traverseHierarchy_step] at h
    rw [traverseResolve_step]
    by_cases hd : depth > maxDepth
    · simp [hd] at h
    · simp only [if_neg hd] at h ⊢
      by_cases hv : current ∈ visited
      · simp [hv] at h
      · simp only [if_neg hv] at h ⊢
        cases hfr : adapter.findRole current with
        | none =>
          simp only [hfr, Except.ok.injEq] at h ⊢
          exact ⟨[current], acc, h.symm, rfl, by
            simp [unionDirect, directPermissions, hfr]⟩
        | some role =>
          cases hin : role.inherits with
          | none =>
            simp only [hfr, hin, Except.ok.injEq] at h ⊢
            exact ⟨[current], role.permissions.foldl setAdd acc, h.symm,
              rfl, by
                rw [foldl_setAdd_toFinset]
                simp [unionDirect, directPermissions, hfr]⟩
          | some parent =>
            by_cases hp : parent = ""
            · simp only [hfr, hin, hp, if_pos, Except.ok.injEq] at h ⊢
              exact ⟨[current], role.permissions.foldl setAdd acc, h.symm,
                by simp, by
                  rw [foldl_setAdd_toFinset]
                  simp [unionDirect, directPermissions, hfr]⟩
            · simp only [hfr, hin, if_neg hp] at h ⊢
              obtain ⟨tail, perms, hL, hres, hset⟩ :=
                ih parent (depth + 1) (visited ++ [current])
                  (hier ++ [current]) L
                  (role.permissions.foldl setAdd acc) h
              refine ⟨current :: tail, perms, by simp [hL], hres, ?_⟩
              rw [hset, foldl_setAdd_toFinset, unionDirect_cons]
              simp [directPermissions, hfr, Finset.union_assoc]

/-- A successful hierarchy walk started with equal `visited` and `hierarchy`
accumulators of length `depth` yields a duplicate-free list of at most
`maxDepth + 1` role names. -/
theorem traverseHierarchy_ok_nodup (adapter : RBACAdapter)
    (maxDepth : Nat) :
    ∀ (fuel : Nat) (current : String) (depth : Nat) (visited L : List String),
    traverseHierarchy adapter maxDepth fuel current depth visited visited =
      .ok L →
    visited.Nodup → visited.length = depth →
    L.Nodup ∧ L.length ≤ maxDepth + 1 := by
  intro fuel
  induction fuel with
  | zero =>
    intro current depth visited L h
    simp [traverseHierarchy] at h
  | succ fuel ih =>
    intro current depth visited L h hnd hlen
    rw [traverseHierarchy_step] at h
    by_cases hd : depth > maxDepth
    · simp [hd] at h
    · simp only [if_neg hd] at h
      by_cases hv : current ∈ visited
      · simp [hv] at h
      · simp only [if_neg hv] at h
        have hnd' : (visited ++ [current]).Nodup := by
          simp [List.nodup_append, hnd, hv]
        have hlen' : (visited ++ [current]).length = depth + 1 := by
          simp [hlen]
        have hterm : visited ++ [current] = L →
            L.Nodup ∧ L.length ≤ maxDepth + 1 := by
          intro hL
          rw [← hL]
          exact ⟨hnd', by rw [hlen']; omega⟩
        cases hfr : adapter.findRole current with
        | none =>
          simp only [hfr, Except.ok.injEq] at h
          exact hterm h
        | some role =>
          cases hin : role.inherits with
          | none =>
            simp only [hfr, hin, Except.ok.injEq] at h
            exact hterm h
          | some parent =>
            by_cases hp : parent = ""
            · simp only [hfr, hin, hp, if_pos, Except.ok.injEq] at h
              exact hterm h
            · simp only [hfr, hin, if_neg hp] at h
              exact ih parent (depth + 1) (visited ++ [current]) L h
                hnd' hlen'

/-- A successful hierarchy walk pins down the `inheritsFrom` walk from the
same configuration: it visits the same roles, whose `inherits` pointers are
exactly the later entries of the appended chain (plus possibly a falsy
empty-string pointer at the end), so when the sought parent is none of
those the walk returns `false`. -/
theorem traverseHierarchy_ok_inherits (adapter : RBACAdapter)
    (maxDepth : Nat) (parentRole : String) :
    ∀ (fuel : Nat) (current : String) (depth : Nat)
      (visited hier L : List String),
    traverseHierarchy adapter maxDepth fuel current depth visited hier =
      .ok L →
    ∃ tail, L = hier ++ tail ∧ tail.head? = some current ∧
      (parentRole ∉ tail.drop 1 → parentRole ≠ "" →
        traverseInherits adapter parentRole maxDepth fuel current depth
          visited = false) := by
  intro fuel
  induction fuel with
  | zero =>
    intro current depth visited hier L h
    simp [traverseHierarchy] at h
  | succ fuel ih =>
    intro current depth visited hier L h
    rw [traverseHierarchy_step] at h
    by_cases hd : depth > maxDepth
    · simp [hd] at h
    · simp only [if_neg hd] at h
      by_cases hv : current ∈ visited
      · simp [hv] at h
      · simp only [if_neg hv] at h
        cases hfr : adapter.findRole current with
        | none =>
          simp only [hfr, Except.ok.injEq] at h
          exact ⟨[current], h.symm, rfl, fun _ _ => by
            rw [traverseInherits_step]
            simp [hd, hv, hfr]⟩
        | some role =>
          cases hin : role.inherits with
          | none =>
            simp only [hfr, hin, Except.ok.injEq] at h
            exact ⟨[current], h.symm, rfl, fun _ _ => by
              rw [traverseInherits_step]
              simp [hd, hv, hfr, hin]⟩
          | some parent =>
            by_cases hp : parent = ""
            · simp only [hfr, hin, hp, if_pos, Except.ok.injEq] at h
              refine ⟨[current], h.symm, rfl, fun _ hpr => by
                rw [traverseInherits_step]
                simp [hd, hv, hfr, hin, hp]
                intro hcontra
                exact absurd hcontra.symm hpr⟩
            · simp only [hfr, hin, if_neg hp] at h
              obtain ⟨tail, hL, hhead, hinh⟩ :=
                ih parent (depth + 1) (visited ++ [current])
                  (hier ++ [current]) L h
              refine ⟨current :: tail, by simp [hL], rfl, ?_⟩
              intro hnm hpr
              have hmem : parent ∈ tail := by
                cases tail with
                | nil => simp at hhead
                | cons a t =>
                  simp at hhead
                  simp [hhead]
              have hne : parent ≠ parentRole := by
                intro hcontra
                rw [hcontra] at hmem
                exact hnm (by simpa using hmem)
              rw [traverseInherits_step]
              simp only [if_neg hd, if_neg hv, hfr, hin]
              have : ¬ (some parent = some parentRole) := by
                simp [hne]
              simp only [if_neg this, if_neg hp]
              refine hinh ?_ hpr
              intro hcontra
              exact hnm (by
                simp only [List.drop_one] at hcontra ⊢
                cases tail with
                | nil => simp at hcontra
                | cons a t =>
                  simp at hcontra ⊢
                  exact Or.inr hcontra)

/-- When the parent chain from `current` runs through the distinct,
unvisited roles `current :: front` and then points back at `bad`, a name
already on the traversal path, within the depth bound, the resolver walk
fails with `CircularInheritance bad`. -/
theorem traverseResolve_cycle_aux (adapter : RBACAdapter) (maxDepth : Nat)
    (bad : String) :
    ∀ (front : List String) (current : String) (depth fuel : Nat)
      (visited acc : List String),
    chainLinks adapter (current :: (front ++ [bad])) = true →
    (current :: front).Nodup →
    (∀ x ∈ current :: front, x ∉ visited) →
    bad ∈ visited ++ current :: front →
    depth + front.length + 1 ≤ maxDepth →
    depth + fuel = maxDepth + 2 →
    traverseResolve adapter maxDepth fuel current depth visited acc =
      .error (.circularInheritance bad) := by
  intro front
  induction front with
  | nil =>
    intro current depth fuel visited acc hchain hnd hvis hbad hdep hfuel
    simp only [List.nil_append, chainLinks, Bool.and_eq_true,
      decide_eq_true_eq] at hchain
    obtain ⟨hstep, -⟩ := hchain
    cases hfr : adapter.findRole current with
    | none => simp [roleStep, hfr] at hstep
    | some role =>
      cases hin : role.inherits with
      | none => simp [roleStep, hfr, hin] at hstep
      | some parent =>
        by_cases hp : parent = ""
        · simp [roleStep, hfr, hin, hp] at hstep
        · simp only [roleStep, hfr, hin, if_neg hp, Option.some.injEq]
            at hstep
          simp only [List.length_nil] at hdep
          obtain ⟨f, rfl⟩ : ∃ f, fuel = f + 2 := ⟨fuel - 2, by omega⟩
          have hd : ¬ depth > maxDepth := by omega
          have hv : current ∉ visited := hvis current (by simp)
          rw [traverseResolve_step]
          simp only [if_neg hd, if_neg hv, hfr, hin, if_neg hp]
          rw [traverseResolve_step]
          have hd' : ¬ depth + 1 > maxDepth := by omega
          have hb : parent ∈ visited ++ [current] := by
            rw [hstep]
            simpa using hbad
          rw [if_neg hd', if_pos hb, hstep]
  | cons c rest ih =>
    intro current depth fuel visited acc hchain hnd hvis hbad hdep hfuel
    simp only [List.cons_append, chainLinks, Bool.and_eq_true,
      decide_eq_true_eq] at hchain
    obtain ⟨hstep, hchain'⟩ := hchain
    cases hfr : adapter.findRole current with
    | none => simp [roleStep, hfr] at hstep
    | some role =>
      cases hin : role.inherits with
      | none => simp [roleStep, hfr, hin] at hstep
      | some parent =>
        by_cases hp : parent = ""
        · simp [roleStep, hfr, hin, hp] at hstep
        · simp only [roleStep, hfr, hin, if_neg hp, Option.some.injEq]
            at hstep
          simp only [List.length_cons] at hdep
          obtain ⟨f, rfl⟩ : ∃ f, fuel = f + 1 := ⟨fuel - 1, by omega⟩
          have hd : ¬ depth > maxDepth := by omega
          have hv : current ∉ visited := hvis current (by simp)
          rw [traverseResolve_step]
          simp only [if_neg hd, if_neg hv, hfr, hin, if_neg hp]
          rw [hstep]
          refine ih c (depth + 1) f (visited ++ [current])
            (role.permissions.foldl setAdd acc)
            hchain' hnd.of_cons ?_ ?_ (by omega) (by omega)
          · intro x hx
            have hxv : x ∉ visited :=
              hvis x (List.mem_cons_of_mem current hx)
            have hxc : x ≠ current := by
              intro hcontra
              rw [hcontra] at hx
              exact (List.nodup_cons.mp hnd).1 hx
            simp [hxv, hxc]
          · have hprev := hbad
            simp only [List.mem_append, List.mem_cons] at hprev ⊢
            tauto

/-- The hierarchy walk fails with `CircularInheritance bad` under the same
cycle conditions as the resolver walk. -/
theorem traverseHierarchy_cycle_aux (adapter : RBACAdapter) (maxDepth : Nat)
    (bad : String) :
    ∀ (front : List String) (current : String) (depth fuel : Nat)
      (visited hier : List String),
    chainLinks adapter (current :: (front ++ [bad])) = true →
    (current :: front).Nodup →
    (∀ x ∈ current :: front, x ∉ visited) →
    bad ∈ visited ++ current :: front →
    depth + front.length + 1 ≤ maxDepth →
    depth + fuel = maxDepth + 2 →
    traverseHierarchy adapter maxDepth fuel current depth visited hier =
      .error (.circularInheritance bad) := by
  intro front
  induction front with
  | nil =>
    intro current depth fuel visited hier hchain hnd hvis hbad hdep hfuel
    simp only [List.nil_append, chainLinks, Bool.and_eq_true,
      decide_eq_true_eq] at hchain
    obtain ⟨hstep, -⟩ := hchain
    cases hfr : adapter.findRole current with
    | none => simp [roleStep, hfr] at hstep
    | some role =>
      cases hin : role.inherits with
      | none => simp [roleStep, hfr, hin] at hstep
      | some parent =>
        by_cases hp : parent = ""
        · simp [roleStep, hfr, hin, hp] at hstep
        · simp only [roleStep, hfr, hin, if_neg hp, Option.some.injEq]
            at hstep
          simp only [List.length_nil] at hdep
          obtain ⟨f, rfl⟩ : ∃ f, fuel = f + 2 := ⟨fuel - 2, by omega⟩
          have hd : ¬ depth > maxDepth := by omega
          have hv : current ∉ visited := hvis current (by simp)
          rw [traverseHierarchy_step]
          simp only [if_neg hd, if_neg hv, hfr, hin, if_neg hp]
          rw [traverseHierarchy_step]
          have hd' : ¬ depth + 1 > maxDepth := by omega
          have hb : parent ∈ visited ++ [current] := by
            rw [hstep]
            simpa using hbad
          rw [if_neg hd', if_pos hb, hstep]
  | cons c rest ih =>
    intro current depth fuel visited hier hchain hnd hvis hbad hdep hfuel
    simp only [List.cons_append, chainLinks, Bool.and_eq_true,
      decide_eq_true_eq] at hchain
    obtain ⟨hstep, hchain'⟩ := hchain
    cases hfr : adapter.findRole current with
    | none => simp [roleStep, hfr] at hstep
    | some role =>
      cases hin : role.inherits with
      | none => simp [roleStep, hfr, hin] at hstep
      | some parent =>
        by_cases hp : parent = ""
        · simp [roleStep, hfr, hin, hp] at hstep
        · simp only [roleStep, hfr, hin, if_neg hp, Option.some.injEq]
            at hstep
          simp only [List.length_cons] at hdep
          obtain ⟨f, rfl⟩ : ∃ f, fuel = f + 1 := ⟨fuel - 1, by omega⟩
          have hd : ¬ depth > maxDepth := by omega
          have hv : current ∉ visited := hvis current (by simp)
          rw [traverseHierarchy_step]
          simp only [if_neg hd, if_neg hv, hfr, hin, if_neg hp]
          rw [hstep]
          refine ih c (depth + 1) f (visited ++ [current])
            (hier ++ [current]) hchain' hnd.of_cons ?_ ?_ (by omega)
            (by omega)
          · intro x hx
            have hxv : x ∉ visited :=
              hvis x (List.mem_cons_of_mem current hx)
            have hxc : x ≠ current := by
              intro hcontra
              rw [hcontra] at hx
              exact (List.nodup_cons.mp hnd).1 hx
            simp [hxv, hxc]
          · have hprev := hbad
            simp only [List.mem_append, List.mem_cons] at hprev ⊢
            tauto

/-- On the same cycle, provided the sought parent never occurs as an
`inherits` pointer along the path, the `inheritsFrom` walk returns `false`
rather than failing. -/
theorem traverseInherits_cycle_aux (adapter : RBACAdapter) (maxDepth : Nat)
    (bad parentRole : String) :
    ∀ (front : List String) (current : String) (depth fuel : Nat)
      (visited : List String),
    chainLinks adapter (current :: (front ++ [bad])) = true →
    (current :: front).Nodup →
    (∀ x ∈ current :: front, x ∉ visited) →
    bad ∈ visited ++ current :: front →
    depth + front.length + 1 ≤ maxDepth →
    depth + fuel = maxDepth + 2 →
    parentRole ∉ front ++ [bad] →
    traverseInherits adapter parentRole maxDepth fuel current depth
      visited = false := by
  intro front
  induction front with
  | nil =>
    intro current depth fuel visited hchain hnd hvis hbad hdep hfuel hpr
    simp only [List.nil_append, chainLinks, Bool.and_eq_true,
      decide_eq_true_eq] at hchain
    obtain ⟨hstep, -⟩ := hchain
    cases hfr : adapter.findRole current with
    | none => simp [roleStep, hfr] at hstep
    | some role =>
      cases hin : role.inherits with
      | none => simp [roleStep, hfr, hin] at hstep
      | some parent =>
        by_cases hp : parent = ""
        · simp [roleStep, hfr, hin, hp] at hstep
        · simp only [roleStep, hfr, hin, if_neg hp, Option.some.injEq]
            at hstep
          simp only [List.length_nil] at hdep
          obtain ⟨f, rfl⟩ : ∃ f, fuel = f + 2 := ⟨fuel - 2, by omega⟩
          have hd : ¬ depth > maxDepth := by omega
          have hv : current ∉ visited := hvis current (by simp)
          have hne : ¬ ((some parent : Option String) = some parentRole) := by
            simp only [Option.some.injEq]
            intro hcontra
            apply hpr
            rw [← hcontra, hstep]
            simp
          rw [traverseInherits_step]
          simp only [if_neg hd, if_neg hv, hfr, hin, if_neg hne,
            if_neg hp]
          rw [traverseInherits_step]
          have hd' : ¬ depth + 1 > maxDepth := by omega
          have hb : parent ∈ visited ++ [current] := by
            rw [hstep]
            simpa using hbad
          rw [if_neg hd', if_pos hb]
  | cons c rest ih =>
    intro current depth fuel visited hchain hnd hvis hbad hdep hfuel hpr
    simp only [List.cons_append, chainLinks, Bool.and_eq_true,
      decide_eq_true_eq] at hchain
    obtain ⟨hstep, hchain'⟩ := hchain
    cases hfr : adapter.findRole current with
    | none => simp [roleStep, hfr] at hstep
    | some role =>
      cases hin : role.inherits with
      | none => simp [roleStep, hfr, hin] at hstep
      | some parent =>
        by_cases hp : parent = ""
        · simp [roleStep, hfr, hin, hp] at hstep
        · simp only [roleStep, hfr, hin, if_neg hp, Option.some.injEq]
            at hstep
          simp only [List.length_cons] at hdep
          obtain ⟨f, rfl⟩ : ∃ f, fuel = f + 1 := ⟨fuel - 1, by omega⟩
          have hd : ¬ depth > maxDepth := by omega
          have hv : current ∉ visited := hvis current (by simp)
          have hne : ¬ ((some parent : Option String) = some parentRole) := by
            simp only [Option.some.injEq]
            intro hcontra
            apply hpr
            rw [← hcontra, hstep]
            simp
          rw [traverseInherits_step]
          simp only [if_neg hd, if_neg hv, hfr, hin, if_neg hne,
            if_neg hp]
          rw [hstep]
          refine ih c (depth + 1) f (visited ++ [current]) hchain'
            hnd.of_cons ?_ ?_ (by omega) (by omega) ?_
          · intro x hx
            have hxv : x ∉ visited :=
              hvis x (List.mem_cons_of_mem current hx)
            have hxc : x ≠ current := by
              intro hcontra
              rw [hcontra] at hx
              exact (List.nodup_cons.mp hnd).1 hx
            simp [hxv, hxc]
          · have hprev := hbad
            simp only [List.mem_append, List.mem_cons] at hprev ⊢
            tauto
          · intro hcontra
            exact hpr (by
              simp only [List.cons_append, List.mem_cons]
              right
              exact hcontra)

/-- When the parent chain from `current` still continues after
`maxDepth - depth` further edges, the resolver walk fails with
`DepthExceeded` at the first role beyond the bound. -/
theorem traverseResolve_depth_aux (adapter : RBACAdapter) (maxDepth : Nat)
    (x : String) :
    ∀ (front : List String) (current : String) (depth fuel : Nat)
      (visited acc : List String),
    chainLinks adapter (current :: (front ++ [x])) = true →
    (current :: front).Nodup →
    (∀ y ∈ current :: front, y ∉ visited) →
    depth + front.length = maxDepth →
    depth + fuel = maxDepth + 2 →
    traverseResolve adapter maxDepth fuel current depth visited acc =
      .error (.depthExceeded maxDepth x) := by
  intro front
  induction front with
  | nil =>
    intro current depth fuel visited acc hchain hnd hvis hdep hfuel
    simp only [List.nil_append, chainLinks, Bool.and_eq_true,
      decide_eq_true_eq] at hchain
    obtain ⟨hstep, -⟩ := hchain
    cases hfr : adapter.findRole current with
    | none => simp [roleStep, hfr] at hstep
    | some role =>
      cases hin : role.inherits with
      | none => simp [roleStep, hfr, hin] at hstep
      | some parent =>
        by_cases hp : parent = ""
        · simp [roleStep, hfr, hin, hp] at hstep
        · simp only [roleStep, hfr, hin, if_neg hp, Option.some.injEq]
            at hstep
          simp only [List.length_nil] at hdep
          obtain ⟨f, rfl⟩ : ∃ f, fuel = f + 2 := ⟨fuel - 2, by omega⟩
          have hd : ¬ depth > maxDepth := by omega
          have hv : current ∉ visited := hvis current (by simp)
          rw [traverseResolve_step]
          simp only [if_neg hd, if_neg hv, hfr, hin, if_neg hp]
          rw [traverseResolve_step]
          have hd' : depth + 1 > maxDepth := by omega
          rw [if_pos hd', hstep]
  | cons c rest ih =>
    intro current depth fuel visited acc hchain hnd hvis hdep hfuel
    simp only [List.cons_append, chainLinks, Bool.and_eq_true,
      decide_eq_true_eq] at hchain
    obtain ⟨hstep, hchain'⟩ := hchain
    cases hfr : adapter.findRole current with
    | none => simp [roleStep, hfr] at hstep
    | some role =>
      cases hin : role.inherits with
      | none => simp [roleStep, hfr, hin] at hstep
      | some parent =>
        by_cases hp : parent = ""
        · simp [roleStep, hfr, hin, hp] at hstep
        · simp only [roleStep, hfr, hin, if_neg hp, Option.some.injEq]
            at hstep
          simp only [List.length_cons] at hdep
          obtain ⟨f, rfl⟩ : ∃ f, fuel = f + 1 := ⟨fuel - 1, by omega⟩
          have hd : ¬ depth > maxDepth := by omega
          have hv : current ∉ visited := hvis current (by simp)
          rw [traverseResolve_step]
          simp only [if_neg hd, if_neg hv, hfr, hin, if_neg hp]
          rw [hstep]
          refine ih c (depth + 1) f (visited ++ [current])
            (role.permissions.foldl setAdd acc) hchain' hnd.of_cons
            ?_ (by omega) (by omega)
          intro y hy
          have hyv : y ∉ visited :=
            hvis y (List.mem_cons_of_mem current hy)
          have hyc : y ≠ current := by
            intro hcontra
            rw [hcontra] at hy
            exact (List.nodup_cons.mp hnd).1 hy
          simp [hyv, hyc]

/-! ## Cache map lemmas -/

theorem cacheGet_cacheSet_self {α : Type} (c : CacheMap α) (key : String)
    (e : CacheEntry α) : cacheGet (cacheSet c key e) key = some e := by
  induction c with
  | nil => simp [cacheSet, cacheGet]
  | cons kv rest ih =>
    obtain ⟨k, e'⟩ := kv
    by_cases h : k = key
    · simp [cacheSet, cacheGet, h]
    · simp [cacheSet, cacheGet, h, ih]

theorem cacheGet_eq_none_of_not_mem {α : Type} (c : CacheMap α)
    (key : String) (h : key ∉ c.map Prod.fst) : cacheGet c key = none := by
  induction c with
  | nil => rfl
  | cons kv rest ih =>
    obtain ⟨k, e⟩ := kv
    simp only [List.map_cons, List.mem_cons] at h
    push_neg at h
    have hk : k ≠ key := fun hh => h.1 hh.symm
    simp [cacheGet, hk, ih h.2]

theorem cacheGet_cacheDelete_self {α : Type} (c : CacheMap α)
    (key : String) (h : (c.map Prod.fst).Nodup) :
    cacheGet (cacheDelete c key) key = none := by
  induction c with
  | nil => rfl
  | cons kv rest ih =>
    obtain ⟨k, e⟩ := kv
    simp only [List.map_cons, List.nodup_cons] at h
    by_cases hk : k = key
    · simp only [cacheDelete, if_pos hk]
      rw [← hk]
      exact cacheGet_eq_none_of_not_mem rest k h.1
    · simp [cacheDelete, cacheGet, hk, ih h.2]

theorem cacheSet_map_fst {α : Type} (c : CacheMap α) (key : String)
    (e : CacheEntry α) :
    (cacheSet c key e).map Prod.fst =
      if key ∈ c.map Prod.fst then c.map Prod.fst
      else c.map Prod.fst ++ [key] := by
  induction c with
  | nil => simp [cacheSet]
  | cons kv rest ih =>
    obtain ⟨k, e'⟩ := kv
    by_cases hk : k = key
    · simp [cacheSet, hk]
    · have hck : ¬ key = k := fun hh => hk hh.symm
      simp only [cacheSet, if_neg hk, List.map_cons, ih, List.mem_cons,
        hck, false_or]
      by_cases hmem : key ∈ rest.map Prod.fst
      · simp [hmem]
      · simp [hmem]

theorem cacheSet_keys_nodup {α : Type} (c : CacheMap α) (key : String)
    (e : CacheEntry α) (h : (c.map Prod.fst).Nodup) :
    ((cacheSet c key e).map Prod.fst).Nodup := by
  rw [cacheSet_map_fst]
  by_cases hmem : key ∈ c.map Prod.fst
  · simp [hmem, h]
  · simp [hmem, List.nodup_append, h]

/-- When the parent chain from `current` terminates (reaches a role with no
truthy parent pointer, or a missing role) within the depth bound, visiting
only fresh distinct roles, the resolver walk succeeds. -/
theorem traverseResolve_terminal_aux (adapter : RBACAdapter)
    (maxDepth : Nat) :
    ∀ (front : List String) (current : String) (depth fuel : Nat)
      (visited acc : List String),
    chainLinks adapter (current :: front) = true →
    (current :: front).Nodup →
    (∀ y ∈ current :: front, y ∉ visited) →
    roleStep adapter ((current :: front).getLast (by simp)) = none →
    depth + front.length ≤ maxDepth →
    depth + fuel = maxDepth + 2 →
    ∃ perms,
      traverseResolve adapter maxDepth fuel current depth visited acc =
        .ok perms := by
  intro front
  induction front with
  | nil =>
    intro current depth fuel visited acc hchain hnd hvis hlast hdep hfuel
    simp only [List.getLast_singleton] at hlast
    simp only [List.length_nil] at hdep
    obtain ⟨f, rfl⟩ : ∃ f, fuel = f + 1 := ⟨fuel - 1, by omega⟩
    have hd : ¬ depth > maxDepth := by omega
    have hv : current ∉ visited := hvis current (by simp)
    rw [traverseResolve_step]
    simp only [if_neg hd, if_neg hv]
    cases hfr : adapter.findRole current with
    | none => exact ⟨acc, by simp⟩
    | some role =>
      cases hin : role.inherits with
      | none => exact ⟨role.permissions.foldl setAdd acc, by simp [hin]⟩
      | some parent =>
        by_cases hp : parent = ""
        · exact ⟨role.permissions.foldl setAdd acc, by simp [hin, hp]⟩
        · exfalso
          simp [roleStep, hfr, hin, hp] at hlast
  | cons c rest ih =>
    intro current depth fuel visited acc hchain hnd hvis hlast hdep hfuel
    simp only [chainLinks, Bool.and_eq_true, decide_eq_true_eq] at hchain
    obtain ⟨hstep, hchain'⟩ := hchain
    cases hfr : adapter.findRole current with
    | none => simp [roleStep, hfr] at hstep
    | some role =>
      cases hin : role.inherits with
      | none => simp [roleStep, hfr, hin] at hstep
      | some parent =>
        by_cases hp : parent = ""
        · simp [roleStep, hfr, hin, hp] at hstep
        · simp only [roleStep, hfr, hin, if_neg hp, Option.some.injEq]
            at hstep
          simp only [List.length_cons] at hdep
          obtain ⟨f, rfl⟩ : ∃ f, fuel = f + 1 := ⟨fuel - 1, by omega⟩
          have hd : ¬ depth > maxDepth := by omega
          have hv : current ∉ visited := hvis current (by simp)
          rw [traverseResolve_step]
          simp only [if_neg hd, if_neg hv, hfr, hin, if_neg hp]
          rw [hstep]
          refine ih c (depth + 1) f (visited ++ [current])
            (role.permissions.foldl setAdd acc) hchain' hnd.of_cons ?_
            ?_ (by omega) (by omega)
          · intro y hy
            have hyv : y ∉ visited :=
              hvis y (List.mem_cons_of_mem current hy)
            have hyc : y ≠ current := by
              intro hcontra
              rw [hcontra] at hy
              exact (List.nodup_cons.mp hnd).1 hy
            simp [hyv, hyc]
          · have hgl : (current :: c :: rest).getLast (by simp) =
                (c :: rest).getLast (by simp) := by
              rw [List.getLast_cons]
            rw [hgl] at hlast
            exact hlast

/-! ## Claim theorems -/

/-- C1: whenever the role hierarchy of `roleName` is produced without error
(which is the case exactly on acyclic ancestor chains of at most `maxDepth`
edges), `resolveRolePermissions` also succeeds, and the permission set it
returns equals the union of the direct permissions
(`adapter.findRole(r).permissions`, empty when the record is missing) of
every role name listed by `getRoleHierarchy`. -/
theorem resolve_eq_union_of_hierarchy (adapter : RBACAdapter)
    (roleName : String) (maxDepth : Nat) (l : List String)
    (h : getRoleHierarchy adapter roleName maxDepth = .ok l) :
    ∃ perms, resolveRolePermissions adapter roleName maxDepth = .ok perms ∧
      perms.toFinset = unionDirect adapter l := by
  obtain ⟨tail, perms, hL, hres, hset⟩ :=
    traverseHierarchy_ok_resolve adapter maxDepth (maxDepth + 2) roleName 0
      [] [] l [] h
  have htail : l = tail := by simpa using hL
  refine ⟨perms, hres, ?_⟩
  rw [hset, htail]
  simp

/-- Witness for C1 at the `manager` role of the test fixture. -/
theorem resolve_eq_union_of_hierarchy_witness :
    getRoleHierarchy fixtureAdapter "manager" 10 = .ok ["manager", "user"] ∧
    ∃ perms,
      resolveRolePermissions fixtureAdapter "manager" 10 = .ok perms ∧
      perms.toFinset = unionDirect fixtureAdapter ["manager", "user"] :=
  ⟨rfl, resolve_eq_union_of_hierarchy fixtureAdapter "manager" 10
    ["manager", "user"] rfl⟩

/-- C2: when the parent chain from `roleName` revisits a role `bad` already
on the active traversal path within `maxDepth` edges, both
`resolveRolePermissions` and `getRoleHierarchy` fail with the
`CircularInheritance` error naming the revisited role. -/
theorem cycle_raises_circular (adapter : RBACAdapter) (maxDepth : Nat)
    (roleName bad : String) (front : List String)
    (hchain : chainLinks adapter (roleName :: (front ++ [bad])) = true)
    (hnd : (roleName :: front).Nodup)
    (hbad : bad ∈ roleName :: front)
    (hlen : front.length + 1 ≤ maxDepth) :
    resolveRolePermissions adapter roleName maxDepth =
      .error (.circularInheritance bad) ∧
    getRoleHierarchy adapter roleName maxDepth =
      .error (.circularInheritance bad) := by
  constructor
  · exact traverseResolve_cycle_aux adapter maxDepth bad front roleName 0
      (maxDepth + 2) [] [] hchain hnd (by simp) (by simpa using hbad)
      (by omega) (by omega)
  · exact traverseHierarchy_cycle_aux adapter maxDepth bad front roleName 0
      (maxDepth + 2) [] [] hchain hnd (by simp) (by simpa using hbad)
      (by omega) (by omega)

/-- Witness for C2 on the mutual-parents store (`role-a` ↔ `role-b`). -/
theorem cycle_raises_circular_witness :
    resolveRolePermissions mutualAdapter "role-a" 10 =
      .error (.circularInheritance "role-a") ∧
    getRoleHierarchy mutualAdapter "role-a" 10 =
      .error (.circularInheritance "role-a") :=
  cycle_raises_circular mutualAdapter 10 "role-a" "role-a" ["role-b"]
    (by decide) (by decide) (by decide) (by decide)

/-- C6: a starting role with no store record yields the empty permission
set and the single-element hierarchy, with no error. -/
theorem missing_role_empty_results (adapter : RBACAdapter)
    (roleName : String) (h : adapter.findRole roleName = none) :
    resolveRolePermissions adapter roleName defaultMaxDepth = .ok [] ∧
    getRoleHierarchy adapter roleName defaultMaxDepth = .ok [roleName] := by
  constructor
  · show traverseResolve adapter defaultMaxDepth (defaultMaxDepth + 1 + 1)
      roleName 0 [] [] = .ok []
    rw [traverseResolve_step]
    simp [h]
  · show traverseHierarchy adapter defaultMaxDepth (defaultMaxDepth + 1 + 1)
      roleName 0 [] [] = .ok [roleName]
    rw [traverseHierarchy_step]
    simp [h]

/-- Witness for C6 at a store with no roles at all. -/
theorem missing_role_empty_results_witness :
    resolveRolePermissions noRoleAdapter "nonexistent" defaultMaxDepth =
      .ok [] ∧
    getRoleHierarchy noRoleAdapter "nonexistent" defaultMaxDepth =
      .ok ["nonexistent"] :=
  missing_role_empty_results noRoleAdapter "nonexistent" rfl

/-- C9 counterexample: with the default `maxDepth = 10`, the eleven-role
chain `level-0 … level-10` resolves to an eleven-element hierarchy, which
exceeds `maxDepth`, so the claimed bound `length ≤ maxDepth` is false. -/
theorem hierarchy_length_exceeds_maxDepth :
    getRoleHierarchy chainAdapter "level-10" 10 =
      .ok ["level-10", "level-9", "level-8", "level-7", "level-6",
        "level-5", "level-4", "level-3", "level-2", "level-1",
        "level-0"] ∧
    ¬ (["level-10", "level-9", "level-8", "level-7", "level-6", "level-5",
        "level-4", "level-3", "level-2", "level-1",
        "level-0"] : List String).length ≤ 10 :=
  ⟨rfl, by decide⟩

/-- C9 amended: every list returned without error by `getRoleHierarchy`
contains no role name twice and has length at most `maxDepth + 1` (the
depth bound counts edges, so up to `maxDepth + 1` nodes fit). -/
theorem hierarchy_nodup_and_length_bound (adapter : RBACAdapter)
    (roleName : String) (maxDepth : Nat) (l : List String)
    (h : getRoleHierarchy adapter roleName maxDepth = .ok l) :
    l.Nodup ∧ l.length ≤ maxDepth + 1 :=
  traverseHierarchy_ok_nodup adapter maxDepth (maxDepth + 2) roleName 0 []
    l h (by simp) (by simp)

/-- Witness for the amended C9 on the eleven-role chain. -/
theorem hierarchy_nodup_and_length_bound_witness :
    (["level-10", "level-9", "level-8", "level-7", "level-6", "level-5",
      "level-4", "level-3", "level-2", "level-1",
      "level-0"] : List String).Nodup ∧
    (["level-10", "level-9", "level-8", "level-7", "level-6", "level-5",
      "level-4", "level-3", "level-2", "level-1",
      "level-0"] : List String).length ≤ 10 + 1 :=
  hierarchy_nodup_and_length_bound chainAdapter "level-10" 10
    ["level-10", "level-9", "level-8", "level-7", "level-6", "level-5",
      "level-4", "level-3", "level-2", "level-1", "level-0"] rfl

/-- C10: when `roleName` has a record whose `inherits` field names a role
`g` (a nonempty name, since an empty string is falsy and is treated as no
parent) with no store record, `getRoleHierarchy` succeeds and ends its
chain with `g`: each name is appended to the chain before it is looked
up. -/
theorem hierarchy_includes_dangling_ancestor (adapter : RBACAdapter)
    (roleName g : String) (doc : RoleDocument)
    (hr : adapter.findRole roleName = some doc)
    (hg : doc.inherits = some g)
    (hne : g ≠ "")
    (hmiss : adapter.findRole g = none) :
    getRoleHierarchy adapter roleName defaultMaxDepth = .ok [roleName, g] := by
  have hrg : g ≠ roleName := by
    intro hcontra
    rw [← hcontra, hmiss] at hr
    exact Option.noConfusion hr
  show traverseHierarchy adapter defaultMaxDepth (defaultMaxDepth + 1 + 1)
    roleName 0 [] [] = .ok [roleName, g]
  rw [traverseHierarchy_step]
  have h0 : ¬ (0 > defaultMaxDepth) := by simp
  simp only [if_neg h0, List.not_mem_nil, if_neg (List.not_mem_nil roleName),
    hr, hg, if_neg hne]
  rw [traverseHierarchy_step]
  have h1 : ¬ (1 > defaultMaxDepth) := by simp [defaultMaxDepth]
  simp [if_neg h1, hrg, hmiss, defaultMaxDepth]

/-- Witness for C10: a role whose parent name has no record. -/
theorem hierarchy_includes_dangling_ancestor_witness :
    getRoleHierarchy (mkStoreAdapter [⟨"editor", ["content.edit"],
      some "ghost"⟩]) "editor" defaultMaxDepth = .ok ["editor", "ghost"] :=
  hierarchy_includes_dangling_ancestor
    (mkStoreAdapter [⟨"editor", ["content.edit"], some "ghost"⟩])
    "editor" "ghost" ⟨"editor", ["content.edit"], some "ghost"⟩
    rfl rfl (by decide) rfl

/-- C3 counterexample: for the two mutual parents `role-a` → `role-b` →
`role-a`, `inheritsFrom(adapter, role-a, role-b)` returns `true`, not
`false` as claimed: `role-b` is `role-a`'s direct parent, and the direct
parent check fires before cycle detection can. -/
theorem inheritsFrom_mutual_parents_true :
    inheritsFrom mutualAdapter "role-a" "role-b" defaultMaxDepth = true := by
  decide

/-- C3 amended: `inheritsFrom` is a total boolean function (it never
raises): a missing starting role yields `false`; a cycle on which the
candidate parent never occurs as any role's `inherits` pointer yields
`false`; but a candidate that is the starting role's direct parent — as in
two mutual parents — yields `true`. -/
theorem inheritsFrom_failure_policy :
    (∀ (adapter : RBACAdapter) (roleName parentRole : String)
      (maxDepth : Nat), adapter.findRole roleName = none →
      inheritsFrom adapter roleName parentRole maxDepth = false) ∧
    (∀ (adapter : RBACAdapter) (maxDepth : Nat)
      (roleName bad parentRole : String) (front : List String),
      chainLinks adapter (roleName :: (front ++ [bad])) = true →
      (roleName :: front).Nodup →
      bad ∈ roleName :: front →
      front.length + 1 ≤ maxDepth →
      parentRole ∉ front ++ [bad] →
      inheritsFrom adapter roleName parentRole maxDepth = false) ∧
    (∀ (adapter : RBACAdapter) (a b : String) (docA : RoleDocument)
      (maxDepth : Nat), adapter.findRole a = some docA →
      docA.inherits = some b →
      inheritsFrom adapter a b maxDepth = true) := by
  refine ⟨?_, ?_, ?_⟩
  · intro adapter roleName parentRole maxDepth h
    show traverseInherits adapter parentRole maxDepth (maxDepth + 1 + 1)
      roleName 0 [] = false
    rw [traverseInherits_step]
    simp [h]
  · intro adapter maxDepth roleName bad parentRole front hchain hnd hbad
      hlen hpr
    exact traverseInherits_cycle_aux adapter maxDepth bad parentRole front
      roleName 0 (maxDepth + 2) [] hchain hnd (by simp)
      (by simpa using hbad) (by omega) (by omega) hpr
  · intro adapter a b docA maxDepth h1 h2
    show traverseInherits adapter b maxDepth (maxDepth + 1 + 1)
      a 0 [] = true
    rw [traverseInherits_step]
    simp [h1, h2]

/-- Witness for the amended C3: a missing role yields `false`, and in the
mutual-parents store the direct parent yields `true`. -/
theorem inheritsFrom_failure_policy_witness :
    inheritsFrom mutualAdapter "nonexistent" "role-a" 10 = false ∧
    inheritsFrom mutualAdapter "role-b" "role-a" 10 = true :=
  ⟨inheritsFrom_failure_policy.1 mutualAdapter "nonexistent" "role-a" 10
    rfl,
  inheritsFrom_failure_policy.2.2 mutualAdapter "role-b" "role-a"
    ⟨"role-b", ["perm-b"], some "role-a"⟩ 10 rfl rfl⟩

/-- C4 counterexample: for a role naming itself as parent,
`inheritsFrom(adapter, r, r)` returns `true`, not `false` as claimed: the
walk checks `role.inherits === parentRole` before the visited-set can
detect the one-step cycle. -/
theorem inheritsFrom_self_parent_true :
    inheritsFrom selfParentAdapter "r" "r" defaultMaxDepth = true := by
  decide

/-- C4 amended: `inheritsFrom(adapter, r, r)` is `false` for every nonempty
role name `r` whose hierarchy walk succeeds, i.e. whose ancestor chain is
acyclic within the depth bound; when the chain reaches a role naming `r` as
its parent (such as `r` itself under a self-parent pointer), it returns
`true` instead. -/
theorem inheritsFrom_self_false_of_acyclic (adapter : RBACAdapter)
    (roleName : String) (maxDepth : Nat) (l : List String)
    (hok : getRoleHierarchy adapter roleName maxDepth = .ok l)
    (hne : roleName ≠ "") :
    inheritsFrom adapter roleName roleName maxDepth = false := by
  obtain ⟨tail, hL, hhead, hinh⟩ :=
    traverseHierarchy_ok_inherits adapter maxDepth roleName (maxDepth + 2)
      roleName 0 [] [] l hok
  have hnd : l.Nodup :=
    (traverseHierarchy_ok_nodup adapter maxDepth (maxDepth + 2) roleName 0
      [] l hok (by simp) (by simp)).1
  have htail : l = tail := by simpa using hL
  rw [← htail] at hhead hinh
  cases l with
  | nil => simp at hhead
  | cons a rest =>
    simp only [List.head?_cons, Option.some.injEq] at hhead
    rw [hhead] at hnd
    have hnotmem : roleName ∉ rest := (List.nodup_cons.mp hnd).1
    exact hinh (by simpa using hnotmem) hne

/-- Witness for the amended C4 at the `admin` role of the test fixture. -/
theorem inheritsFrom_self_false_of_acyclic_witness :
    inheritsFrom fixtureAdapter "admin" "admin" 10 = false :=
  inheritsFrom_self_false_of_acyclic fixtureAdapter "admin" 10
    ["admin", "manager", "user"] rfl (by decide)

/-- C5: depth counts edges with depth 0 at the starting role.  In general,
a walk whose distinct chain still continues after `maxDepth` edges fails
with `DepthExceeded`, and a walk whose chain terminates within `maxDepth`
edges succeeds; concretely on the fifteen-role chain: the eleven-role
suffix resolves with `maxDepth = 10`, resolution from `level-14` with
`maxDepth = 5` fails with `DepthExceeded`, and with `maxDepth = 20` it
succeeds with the union of all fifteen direct permissions. -/
theorem depth_boundary_spec :
    (∀ (adapter : RBACAdapter) (maxDepth : Nat) (roleName x : String)
      (front : List String),
      chainLinks adapter (roleName :: (front ++ [x])) = true →
      (roleName :: front).Nodup →
      front.length = maxDepth →
      resolveRolePermissions adapter roleName maxDepth =
        .error (.depthExceeded maxDepth x)) ∧
    (∀ (adapter : RBACAdapter) (maxDepth : Nat) (roleName : String)
      (front : List String),
      chainLinks adapter (roleName :: front) = true →
      (roleName :: front).Nodup →
      roleStep adapter ((roleName :: front).getLast (by simp)) = none →
      front.length ≤ maxDepth →
      ∃ perms, resolveRolePermissions adapter roleName maxDepth =
        .ok perms) ∧
    resolveRolePermissions chainAdapter "level-10" 10 =
      .ok ["perm-10", "perm-9", "perm-8", "perm-7", "perm-6", "perm-5",
        "perm-4", "perm-3", "perm-2", "perm-1", "perm-0"] ∧
    resolveRolePermissions chainAdapter "level-14" 5 =
      .error (.depthExceeded 5 "level-8") ∧
    resolveRolePermissions chainAdapter "level-14" 20 =
      .ok ["perm-14", "perm-13", "perm-12", "perm-11", "perm-10", "perm-9",
        "perm-8", "perm-7", "perm-6", "perm-5", "perm-4", "perm-3",
        "perm-2", "perm-1", "perm-0"] ∧
    (["perm-14", "perm-13", "perm-12", "perm-11", "perm-10", "perm-9",
        "perm-8", "perm-7", "perm-6", "perm-5", "perm-4", "perm-3",
        "perm-2", "perm-1", "perm-0"] : List String).toFinset =
      (["perm-0", "perm-1", "perm-2", "perm-3", "perm-4", "perm-5",
        "perm-6", "perm-7", "perm-8", "perm-9", "perm-10", "perm-11",
        "perm-12", "perm-13", "perm-14"] : List String).toFinset := by
  refine ⟨?_, ?_, rfl, rfl, rfl, by decide⟩
  · intro adapter maxDepth roleName x front hchain hnd hlen
    exact traverseResolve_depth_aux adapter maxDepth x front roleName 0
      (maxDepth + 2) [] [] hchain hnd (by simp) (by omega) (by omega)
  · intro adapter maxDepth roleName front hchain hnd hlast hlen
    exact traverseResolve_terminal_aux adapter maxDepth front roleName 0
      (maxDepth + 2) [] [] hchain hnd (by simp) hlast (by omega)
      (by omega)

/-- Witness for C5's general parts on a two-role chain with
`maxDepth = 1`. -/
theorem depth_boundary_spec_witness :
    resolveRolePermissions (mkStoreAdapter [⟨"a", ["p"], some "b"⟩,
      ⟨"b", ["q"], some "c"⟩, ⟨"c", ["s"], none⟩]) "a" 1 =
      .error (.depthExceeded 1 "c") ∧
    ∃ perms, resolveRolePermissions (mkStoreAdapter [⟨"a", ["p"],
      some "b"⟩, ⟨"b", ["q"], some "c"⟩, ⟨"c", ["s"], none⟩]) "b" 1 =
      .ok perms :=
  ⟨depth_boundary_spec.1 (mkStoreAdapter [⟨"a", ["p"], some "b"⟩,
      ⟨"b", ["q"], some "c"⟩, ⟨"c", ["s"], none⟩]) 1 "a" "c" ["b"]
      (by decide) (by decide) (by decide),
  depth_boundary_spec.2.1 (mkStoreAdapter [⟨"a", ["p"], some "b"⟩,
      ⟨"b", ["q"], some "c"⟩, ⟨"c", ["s"], none⟩]) 1 "b" ["c"]
      (by decide) (by decide) (by decide) (by decide)⟩

/-- C7: with caching enabled, a `withCache` miss fetches and stores the
value with expiry `now + ttl·1000`; a second call with the same key
strictly before that expiry returns the stored value without fetching
(one fetch across the two calls); after `clearCache(key)` or once the
expiry has passed, the next call fetches again; and a value is returned
from the cache only while its expiry timestamp is strictly in the
future. -/
theorem withCache_ttl_contract {α : Type} (st : BaseAdapterState α)
    (key : String) (a : α) (t0 : Nat) (c : CacheMap α)
    (hc : st.cache = some c)
    (hkeys : (c.map Prod.fst).Nodup)
    (hmiss : ∀ e, cacheGet c key = some e → e.expires ≤ t0) :
    (∃ st1 : BaseAdapterState α,
      withCache st key a t0 = (a, st1, true) ∧
      st1.cache = some (cacheSet c key
        ⟨a, t0 + ttlOrDefault st.cacheConfig * 1000⟩) ∧
      (∀ (b : α) (t1 : Nat),
        t1 < t0 + ttlOrDefault st.cacheConfig * 1000 →
        withCache st1 key b t1 = (a, st1, false)) ∧
      (∀ (b : α) (t2 : Nat),
        (withCache (clearCache st1 (some key)) key b t2).1 = b ∧
        (withCache (clearCache st1 (some key)) key b t2).2.2 = true) ∧
      (∀ (b : α) (t3 : Nat),
        t0 + ttlOrDefault st.cacheConfig * 1000 ≤ t3 →
        (withCache st1 key b t3).1 = b ∧
        (withCache st1 key b t3).2.2 = true)) ∧
    (∀ (st' : BaseAdapterState α) (key' : String) (b : α) (now : Nat)
      (v : α) (next : BaseAdapterState α),
      withCache st' key' b now = (v, next, false) →
      ∃ c' e, st'.cache = some c' ∧ cacheGet c' key' = some e ∧
        v = e.data ∧ now < e.expires) := by
  constructor
  · refine ⟨{ st with cache := some (cacheSet c key
      ⟨a, t0 + ttlOrDefault st.cacheConfig * 1000⟩) }, ?_, rfl, ?_, ?_, ?_⟩
    · simp only [withCache, hc]
      cases hg : cacheGet c key with
      | none => simp [hg]
      | some e =>
        have hexp : ¬ e.expires > t0 := by
          have := hmiss e hg
          omega
        simp [hg, hexp]
    · intro b t1 ht1
      simp only [withCache, cacheGet_cacheSet_self]
      have hexp : (⟨a, t0 + ttlOrDefault st.cacheConfig * 1000⟩ :
          CacheEntry α).expires > t1 := ht1
      simp [hexp]
    · intro b t2
      simp only [clearCache, withCache]
      have hnone : cacheGet (cacheDelete
          (cacheSet c key ⟨a, t0 + ttlOrDefault st.cacheConfig * 1000⟩)
          key) key = none :=
        cacheGet_cacheDelete_self _ key
          (cacheSet_keys_nodup c key _ hkeys)
      simp [hnone]
    · intro b t3 ht3
      simp only [withCache, cacheGet_cacheSet_self]
      have hexp : ¬ (⟨a, t0 + ttlOrDefault st.cacheConfig * 1000⟩ :
          CacheEntry α).expires > t3 := by
        simp only [gt_iff_lt, not_lt]
        exact ht3
      simp [hexp]
  · intro st' key' b now v next h
    cases hcc : st'.cache with
    | none =>
      simp only [withCache, hcc] at h
      simp at h
    | some c' =>
      simp only [withCache, hcc] at h
      cases hg : cacheGet c' key' with
      | none =>
        simp [hg] at h
      | some e =>
        by_cases he : e.expires > now
        · simp only [hg, if_pos he, Prod.mk.injEq] at h
          exact ⟨c', e, rfl, hg, h.1.symm, he⟩
        · simp [hg, if_neg he] at h

/-- Witness for C7: a cache with `ttl = 60` seconds stores at time 1000 ms
and serves the stored value without fetching at 60999 ms. -/
theorem withCache_ttl_contract_witness :
    ∃ st1 : BaseAdapterState Nat,
      withCache (mkBaseAdapterState Nat ⟨true, some 60⟩) "role:admin" 7
        1000 = (7, st1, true) ∧
      withCache st1 "role:admin" 9 60999 = (7, st1, false) := by
  obtain ⟨st1, h1, -, h3, -, -⟩ :=
    (withCache_ttl_contract (mkBaseAdapterState Nat ⟨true, some 60⟩)
      "role:admin" 7 1000 [] rfl (by simp) (by simp [cacheGet])).1
  exact ⟨st1, h1, h3 9 60999 (by decide)⟩

/-- C8 counterexample: for a subject with no assigned role,
`hasAllPermissions(subject, [], adapter)` returns `false`, not the claimed
fixed `true`: the no-role guard fires before the vacuous `every`. -/
theorem hasAllPermissions_empty_no_role_false :
    hasAllPermissions "user-1" [] noRoleAdapter = false := by decide

/-- C8 amended: `hasAnyPermission(subject, [], adapter)` is `false` for
every subject and adapter; `hasAllPermissions(subject, [], adapter)` is
`true` for every subject holding a (truthy) assigned role, but `false` for
a subject with no assigned role — the empty-list convention is fixed only
conditional on the subject having a role. -/
theorem empty_permission_list_conventions :
    (∀ (userId : String) (adapter : RBACAdapter),
      hasAnyPermission userId [] adapter = false) ∧
    (∀ (userId : String) (adapter : RBACAdapter) (role : String),
      adapter.getUserRole userId = some role → role ≠ "" →
      hasAllPermissions userId [] adapter = true) ∧
    (∀ (userId : String) (adapter : RBACAdapter),
      adapter.getUserRole userId = none →
      hasAllPermissions userId [] adapter = false) := by
  refine ⟨?_, ?_, ?_⟩
  · intro userId adapter
    unfold hasAnyPermission
    cases h : adapter.getUserRole userId with
    | none => rfl
    | some role => by_cases hr : role = "" <;> simp [hr]
  · intro userId adapter role h hr
    simp [hasAllPermissions, h, hr]
  · intro userId adapter h
    simp [hasAllPermissions, h]

/-- Witness for the amended C8: the fixed conventions at a store granting
every user the role `admin`, and the no-role exception. -/
theorem empty_permission_list_conventions_witness :
    hasAnyPermission "u1" [] adminRoleAdapter = false ∧
    hasAllPermissions "u1" [] adminRoleAdapter = true ∧
    hasAllPermissions "u1" [] noRoleAdapter = false :=
  ⟨empty_permission_list_conventions.1 "u1" adminRoleAdapter,
  empty_permission_list_conventions.2.1 "u1" adminRoleAdapter "admin" rfl
    (by decide),
  empty_permission_list_conventions.2.2 "u1" noRoleAdapter rfl⟩
